import Mathlib

/-!
Verification of the note collection manager of the AI-Powered Note Organizer
(`aipowerdnoteorganizer.py`), shallowly embedded in Lean.

Strings are handled through their underlying character lists; Python's
`str.lower()` is char-by-char lower-casing, and Python's `pat in s` substring
test is an executable scan (`containsChars`).  Python integers are `Int`.
The one effectful ingredient, `random.choice` on a five-element pool, is made
explicit: the categorizer receives the drawn index `r : Fin 5` as an argument,
so the program's nondeterminism is the dependence of the result on `r`.
The JSON file is modelled as the list of records (`NoteRecord`) that
`_save_notes` writes and `_load_notes` reads back; each record carries
`id`, `title`, `content` and an optional `category`, exactly the keys the
program serializes.  The manager never constructs tagged notes, so the unused
`TaggedCategorizedNote` class is out of scope.
-/

namespace Organizer

/-- Char-by-char lower-casing of a character list: Python's `s.lower()` for the
ASCII text this program manipulates. -/
def lowerChars (s : List Char) : List Char := s.map Char.toLower

/-- Executable test that `p` is a prefix of `s` (helper for the substring scan). -/
def hasPrefixChars : List Char → List Char → Bool
  | [], _ => true
  | _ :: _, [] => false
  | a :: p, b :: s => a == b && hasPrefixChars p s

/-- Executable substring test: Python's `pat in s` on character lists. -/
def containsChars : List Char → List Char → Bool
  | [], pat => pat.isEmpty
  | b :: t, pat => hasPrefixChars pat (b :: t) || containsChars t pat

/-- In-memory note: `Note` (no category) or `CategorizedNote`, the only two
shapes the manager ever holds (`_load_notes` builds exactly these two). -/
inductive PyNote where
  | plain (id : Int) (title content : String)
  | categorized (id : Int) (title content : String) (category : String)
deriving DecidableEq

/-- Getter for the private `__note_id` (`Note.get_id`). -/
def PyNote.getId : PyNote → Int
  | .plain i _ _ => i
  | .categorized i _ _ _ => i

/-- The note's title field. -/
def PyNote.title : PyNote → String
  | .plain _ t _ => t
  | .categorized _ t _ _ => t

/-- The note's content field. -/
def PyNote.content : PyNote → String
  | .plain _ _ c => c
  | .categorized _ _ c _ => c

/-- The note's category, when the note is a `CategorizedNote`. -/
def PyNote.categoryOpt : PyNote → Option String
  | .plain _ _ _ => none
  | .categorized _ _ _ cat => some cat

/-- One record of the persisted JSON list: keys `id`, `title`, `content`, and
optionally `category` (`to_dict` writes it only for categorized notes). -/
structure NoteRecord where
  id : Int
  title : String
  content : String
  category : Option String
deriving DecidableEq

/-- `Note.to_dict` / `CategorizedNote.to_dict`: the record a note serializes to. -/
def PyNote.toDict : PyNote → NoteRecord
  | .plain i t c => NoteRecord.mk i t c none
  | .categorized i t c cat => NoteRecord.mk i t c (some cat)

/-- `_save_notes`: the list of records written to the file. -/
def saveNotes (notes : List PyNote) : List NoteRecord := notes.map PyNote.toDict

/-- `_load_notes`, per record: a `CategorizedNote` when the record has a
`category` key, a plain `Note` otherwise. -/
def recordToNote (rec : NoteRecord) : PyNote :=
  match rec.category with
  | some cat => PyNote.categorized rec.id rec.title rec.content cat
  | none => PyNote.plain rec.id rec.title rec.content

/-- `_load_notes`: the notes parsed back from the file's record list. -/
def loadNotes (recs : List NoteRecord) : List PyNote := recs.map recordToNote

/-- The fixed keyword table of `_categorize_note`, in source order. -/
def keywordsTable : List (String × List String) :=
  [("Work", ["meeting", "project", "deadline", "report", "task", "work"]),
   ("Personal", ["shopping", "gym", "family", "friends", "grocery", "personal"]),
   ("Study", ["lecture", "assignment", "exam", "research", "study", "class"]),
   ("Idea", ["idea", "concept", "brainstorm", "innovate"])]

/-- The text the categorizer scans: `(title + " " + content).lower()`. -/
def noteText (title content : String) : List Char :=
  lowerChars (title ++ " " ++ content).toList

/-- The text named by the spec sentences: the lower-cased plain concatenation
of title and content, with no separator. -/
def claimText (title content : String) : List Char :=
  lowerChars (title ++ content).toList

/-- Whether any keyword of one table entry occurs in the text (the inner
`for kw in kws: if kw in text` loop of `_categorize_note`). -/
def catMatches (text : List Char) (entry : String × List String) : Bool :=
  entry.2.any (fun kw => containsChars text kw.toList)

/-- Whether any keyword of any category occurs in the text. -/
def keywordHit (text : List Char) : Bool := keywordsTable.any (catMatches text)

/-- The fallback pool `list(keywords.keys()) + ["General"]` of the random branch. -/
def randomPool : List String := keywordsTable.map Prod.fst ++ ["General"]

/-- The outcome of `random.choice` on the pool when the drawn index is `r`. -/
def randomPick (r : Fin 5) : String :=
  randomPool.get ⟨r.val, Nat.lt_of_lt_of_eq r.isLt (rfl : randomPool.length = 5).symm⟩

/-- `_categorize_note`: first table category with a keyword occurring in
`(title + " " + content).lower()`, else the random pick indexed by `r`. -/
def categorizeNote (title content : String) (r : Fin 5) : String :=
  match keywordsTable.find? (catMatches (noteText title content)) with
  | some entry => entry.1
  | none => randomPick r

/-- The ID `add_note` assigns: `self.notes[-1].get_id() + 1 if self.notes else 1`. -/
def nextId (notes : List PyNote) : Int :=
  match notes.getLast? with
  | some n => n.getId + 1
  | none => 1

/-- `add_note`: build the categorized note with the next ID and append it;
returns the assigned ID together with the new collection. -/
def addNote (notes : List PyNote) (title content : String) (r : Fin 5) : Int × List PyNote :=
  (nextId notes,
   notes ++ [PyNote.categorized (nextId notes) title content (categorizeNote title content r)])

/-- `delete_note`: keep the notes whose ID differs; the boolean records whether
the length dropped, i.e. whether a note was found, a success message printed
and `_save_notes` invoked. -/
def deleteNote (notes : List PyNote) (noteId : Int) : List PyNote × Bool :=
  (notes.filter (fun n => n.getId != noteId),
   decide ((notes.filter (fun n => n.getId != noteId)).length < notes.length))

/-- `search_notes`: lower-case the query once, keep the notes whose lower-cased
title or content contains it (in collection order, by `filter`). -/
def searchNotes (notes : List PyNote) (query : String) : List PyNote :=
  notes.filter (fun n =>
    containsChars (lowerChars n.title.toList) (lowerChars query.toList) ||
    containsChars (lowerChars n.content.toList) (lowerChars query.toList))

/-- `view_notes`: with no filter, or with a falsy (empty) filter string, every
note; otherwise the categorized notes whose lower-cased category equals the
lower-cased filter (`isinstance(note, CategorizedNote) and
note.category.lower() == category.lower()`). -/
def viewNotes (notes : List PyNote) (category : Option String) : List PyNote :=
  match category with
  | none => notes
  | some c =>
    if c = "" then notes
    else
      notes.filter (fun n =>
        match n with
        | PyNote.categorized _ _ _ cat => lowerChars cat.toList == lowerChars c.toList
        | PyNote.plain _ _ _ => false)

/-- The user-visible operations that mutate the collection. -/
inductive Op where
  | add (title content : String) (r : Fin 5)
  | del (noteId : Int)

/-- Apply one operation to the in-memory collection. -/
def applyOp (notes : List PyNote) : Op → List PyNote
  | .add t c r => (addNote notes t c r).2
  | .del i => (deleteNote notes i).1

/-- Run a sequence of operations starting from the empty collection. -/
def runOps (ops : List Op) : List PyNote := ops.foldl applyOp []

/-- The IDs of the collection, in collection order. -/
def idsOf (notes : List PyNote) : List Int := notes.map PyNote.getId

/-- The list `start, start+1, …, start+n-1`. -/
def intRange (start : Int) : Nat → List Int
  | 0 => []
  | n + 1 => start :: intRange (start + 1) n

/-- The IDs returned by a sequence of `add_note` calls on the given collection,
one per `(title, content, random draw)` input. -/
def addIds (inputs : List (String × String × Fin 5)) (notes : List PyNote) : List Int :=
  match inputs with
  | [] => []
  | i :: rest => (addNote notes i.1 i.2.1 i.2.2).1 :: addIds rest (addNote notes i.1 i.2.1 i.2.2).2

theorem roundtrip_note (n : PyNote) : recordToNote (PyNote.toDict n) = n := by
  cases n <;> rfl

/-- C2: saving and reloading reproduces the collection exactly — same IDs,
titles, contents and categories in the same order, and a note without a
category (a plain `Note`) is reloaded without one, since `to_dict` writes no
`category` key for it and `_load_notes` then rebuilds a plain `Note`. -/
theorem save_load_roundtrip (notes : List PyNote) :
    loadNotes (saveNotes notes) = notes := by
  induction notes with
  | nil => rfl
  | cons n rest ih =>
    simp only [saveNotes, loadNotes, List.map_cons] at ih ⊢
    rw [roundtrip_note, ih]

/-- C10: an empty category filter is falsy in `if category:`, so `view_notes`
returns every note, exactly as when no filter is given. -/
theorem viewNotes_empty_filter (notes : List PyNote) :
    viewNotes notes (some "") = notes ∧ viewNotes notes (some "") = viewNotes notes none := by
  constructor <;> simp [viewNotes]

/-- C4: deleting an ID that no note bears leaves the collection unchanged
(same notes, same order, same size) and the boolean is `false`: the length
comparison fails, so the not-found message is printed and `_save_notes` is
not invoked. -/
theorem deleteNote_not_found (notes : List PyNote) (noteId : Int)
    (h : ∀ n ∈ notes, n.getId ≠ noteId) :
    deleteNote notes noteId = (notes, false) := by
  have hfil : notes.filter (fun n => n.getId != noteId) = notes :=
    List.filter_eq_self.mpr (fun n hn => by
      rw [bne_iff_ne]
      exact h n hn)
  simp [deleteNote, hfil]

theorem deleteNote_not_found_witness :
    deleteNote [PyNote.categorized 1 "a" "b" "Work"] 2 =
      ([PyNote.categorized 1 "a" "b" "Work"], false) :=
  deleteNote_not_found [PyNote.categorized 1 "a" "b" "Work"] 2 (by decide)

theorem hasPrefixChars_iff (p : List Char) : ∀ s : List Char,
    hasPrefixChars p s = true ↔ p <+: s := by
  induction p with
  | nil =>
    intro s
    simp [hasPrefixChars, List.nil_prefix]
  | cons a p ih =>
    intro s
    cases s with
    | nil => simp [hasPrefixChars]
    | cons b s => simp [hasPrefixChars, List.cons_prefix_cons, ih s]

theorem containsChars_iff (p : List Char) : ∀ s : List Char,
    containsChars s p = true ↔ p <:+: s := by
  intro s
  induction s with
  | nil => simp [containsChars, List.isEmpty_iff]
  | cons b t ih =>
    rw [containsChars, List.infix_cons_iff]
    simp [hasPrefixChars_iff, ih]

theorem containsChars_nil (s : List Char) : containsChars s [] = true := by
  cases s with
  | nil => rfl
  | cons b t => simp [containsChars, hasPrefixChars]

/-- C7: `search_notes` returns exactly the notes whose lower-cased title or
content has the lower-cased query as a substring (stated through the
mathematical infix relation), in collection order (it is a sublist of the
collection); the empty query keeps every note, and a query matching nothing
yields the empty list, not an error. -/
theorem searchNotes_spec (notes : List PyNote) (query : String) :
    searchNotes notes query = notes.filter (fun n =>
      decide (lowerChars query.toList <:+: lowerChars n.title.toList ∨
              lowerChars query.toList <:+: lowerChars n.content.toList)) ∧
    searchNotes notes "" = notes ∧
    List.Sublist (searchNotes notes query) notes ∧
    searchNotes [PyNote.categorized 1 "alpha" "beta" "General"] "xyz-no-match" = [] := by
  refine ⟨?_, ?_, List.filter_sublist notes, by decide⟩
  · apply List.filter_congr
    intro n _
    rw [Bool.eq_iff_iff]
    simp [containsChars_iff]
  · apply List.filter_eq_self.mpr
    intro n _
    have h1 : lowerChars "".toList = [] := rfl
    rw [h1, containsChars_nil]
    simp

/-- C8: with a non-empty filter string, `view_notes` keeps exactly the notes
carrying a category that equals the filter up to lower-casing, in collection
order; with no filter it returns every note; and the filter is
case-insensitive, e.g. a "Study" note is kept under "STUDY", "Study" and
"study". -/
theorem viewNotes_filter_spec (notes : List PyNote) (c : String) (h : c ≠ "") :
    viewNotes notes (some c) = notes.filter (fun n =>
      (n.categoryOpt.map (fun cat => lowerChars cat.toList == lowerChars c.toList)).getD false) ∧
    viewNotes notes none = notes ∧
    viewNotes [PyNote.categorized 1 "t" "x" "Study"] (some "STUDY") =
      [PyNote.categorized 1 "t" "x" "Study"] ∧
    viewNotes [PyNote.categorized 1 "t" "x" "Study"] (some "Study") =
      [PyNote.categorized 1 "t" "x" "Study"] ∧
    viewNotes [PyNote.categorized 1 "t" "x" "Study"] (some "study") =
      [PyNote.categorized 1 "t" "x" "Study"] := by
  refine ⟨?_, rfl, by decide, by decide, by decide⟩
  simp only [viewNotes, if_neg h]
  apply List.filter_congr
  intro n _
  cases n <;> simp [PyNote.categoryOpt]

theorem viewNotes_filter_spec_witness :
    viewNotes [PyNote.categorized 1 "t" "x" "Study"] (some "STUDY") =
      [PyNote.categorized 1 "t" "x" "Study"].filter (fun n =>
        (n.categoryOpt.map
          (fun cat => lowerChars cat.toList == lowerChars "STUDY".toList)).getD false) :=
  (viewNotes_filter_spec [PyNote.categorized 1 "t" "x" "Study"] "STUDY" (by decide)).1

theorem toList_append2 (a b : String) : (a ++ b).toList = a.toList ++ b.toList :=
  String.data_append a b

theorem toList_join (t c : String) :
    (t ++ " " ++ c).toList = t.toList ++ ' ' :: c.toList := by
  rw [toList_append2, toList_append2, List.append_assoc]
  rfl

theorem toLower_space : Char.toLower ' ' = ' ' := by decide

theorem noteText_eq (t c : String) :
    noteText t c = lowerChars t.toList ++ ' ' :: lowerChars c.toList := by
  simp only [noteText, toList_join, lowerChars, List.map_append, List.map_cons, toLower_space]

theorem claimText_eq (t c : String) :
    claimText t c = lowerChars t.toList ++ lowerChars c.toList := by
  simp only [claimText, toList_append2, lowerChars, List.map_append]

theorem hasPrefixChars_drop_space (B : List Char) : ∀ A p : List Char, ' ' ∉ p →
    hasPrefixChars p (A ++ ' ' :: B) = true → hasPrefixChars p (A ++ B) = true := by
  intro A
  induction A with
  | nil =>
    intro p hp h
    cases p with
    | nil => rfl
    | cons a p2 =>
      exfalso
      rw [List.nil_append] at h
      simp only [hasPrefixChars, Bool.and_eq_true, beq_iff_eq] at h
      exact hp (by simp [h.1])
  | cons x A2 ih =>
    intro p hp h
    cases p with
    | nil => rfl
    | cons a p2 =>
      simp only [List.cons_append, hasPrefixChars, Bool.and_eq_true] at h ⊢
      exact ⟨h.1, ih p2 (fun hm => hp (List.mem_cons_of_mem a hm)) h.2⟩

theorem containsChars_drop_space (B : List Char) : ∀ A p : List Char, ' ' ∉ p →
    containsChars (A ++ ' ' :: B) p = true → containsChars (A ++ B) p = true := by
  intro A
  induction A with
  | nil =>
    intro p hp h
    rw [List.nil_append] at h ⊢
    rw [containsChars] at h
    simp only [Bool.or_eq_true] at h
    rcases h with h1 | h2
    · cases p with
      | nil => exact containsChars_nil B
      | cons a p2 =>
        exfalso
        simp only [hasPrefixChars, Bool.and_eq_true, beq_iff_eq] at h1
        exact hp (by simp [h1.1])
    · exact h2
  | cons x A2 ih =>
    intro p hp h
    rw [List.cons_append, containsChars] at h
    rw [List.cons_append, containsChars]
    simp only [Bool.or_eq_true] at h ⊢
    rcases h with h1 | h2
    · have h3 := hasPrefixChars_drop_space B (x :: A2) p hp (by rw [List.cons_append]; exact h1)
      rw [List.cons_append] at h3
      exact Or.inl h3
    · exact Or.inr (ih p hp h2)

theorem keywordsNoSpace : ∀ e ∈ keywordsTable, ∀ kw ∈ e.2, ' ' ∉ kw.toList := by decide

theorem hit_drop_space (t c : String) :
    keywordHit (noteText t c) = true → keywordHit (claimText t c) = true := by
  intro h
  rw [keywordHit, List.any_eq_true] at h ⊢
  obtain ⟨e, he, hm⟩ := h
  refine ⟨e, he, ?_⟩
  rw [catMatches, List.any_eq_true] at hm ⊢
  obtain ⟨kw, hkw, hc⟩ := hm
  refine ⟨kw, hkw, ?_⟩
  have hns := keywordsNoSpace e he kw hkw
  have h2 : containsChars (lowerChars t.toList ++ ' ' :: lowerChars c.toList) kw.toList = true := by
    rw [← noteText_eq]
    exact hc
  have h3 := containsChars_drop_space (lowerChars c.toList) (lowerChars t.toList) kw.toList hns h2
  rw [claimText_eq]
  exact h3

theorem find?_first_index {α : Type} (p : α → Bool) : ∀ (l : List α) (a : α),
    l.find? p = some a →
    ∃ i, ∃ hi : i < l.length, l.get ⟨i, hi⟩ = a ∧ p a = true ∧
      ∀ j, ∀ hj : j < i, p (l.get ⟨j, Nat.lt_trans hj hi⟩) = false := by
  intro l
  induction l with
  | nil =>
    intro a h
    simp [List.find?] at h
  | cons x xs ih =>
    intro a h
    cases hx : p x with
    | true =>
      rw [List.find?_cons_of_pos _ hx] at h
      obtain rfl : x = a := by injection h
      refine ⟨0, by simp, rfl, hx, ?_⟩
      intro j hj
      exact absurd hj (Nat.not_lt_zero j)
    | false =>
      rw [List.find?_cons_of_neg _ (by simp [hx])] at h
      obtain ⟨i, hi, hget, hpa, hprev⟩ := ih a h
      refine ⟨i + 1, Nat.succ_lt_succ hi, hget, hpa, ?_⟩
      intro j hj
      cases j with
      | zero => exact hx
      | succ k => exact hprev k (Nat.lt_of_succ_lt_succ hj)

theorem find?_isSome_of_hit (text : List Char) (h : keywordHit text = true) :
    ∃ e, keywordsTable.find? (catMatches text) = some e := by
  cases hf : keywordsTable.find? (catMatches text) with
  | some e => exact ⟨e, rfl⟩
  | none =>
    exfalso
    rw [keywordHit, List.any_eq_true] at h
    obtain ⟨e, he, hm⟩ := h
    have hnone := List.find?_eq_none.mp hf e he
    simp [hm] at hnone

/-- C3 fails as stated: in `categorize("tas", "kgym")` the keyword "task"
occurs in the lower-cased plain concatenation "taskgym", whose first matching
table category is Work, yet the code scans `"tas kgym"` (title and content are
joined with a space), misses "task", finds "gym" and returns Personal. -/
theorem categorize_first_counterexample :
    keywordHit (claimText "tas" "kgym") = true ∧
    (keywordsTable.find? (catMatches (claimText "tas" "kgym"))).map Prod.fst = some "Work" ∧
    categorizeNote "tas" "kgym" 0 = "Personal" := by decide

/-- C3 amended: when a keyword occurs in the lower-cased concatenation of
title, a single separating space, and content — the text the code scans —
`categorize` returns the first category in the fixed table order Work,
Personal, Study, Idea whose keyword list has a match (no earlier entry
matches), for every random draw; in particular
`categorize("team meeting tomorrow", "")` is "Work". -/
theorem categorize_first_match (title content : String) (r : Fin 5)
    (h : keywordHit (noteText title content) = true) :
    (∃ i, ∃ hi : i < keywordsTable.length,
      categorizeNote title content r = (keywordsTable.get ⟨i, hi⟩).1 ∧
      catMatches (noteText title content) (keywordsTable.get ⟨i, hi⟩) = true ∧
      ∀ j, ∀ hj : j < i,
        catMatches (noteText title content) (keywordsTable.get ⟨j, Nat.lt_trans hj hi⟩) = false) ∧
    categorizeNote "team meeting tomorrow" "" r = "Work" := by
  constructor
  · obtain ⟨e, he⟩ := find?_isSome_of_hit (noteText title content) h
    obtain ⟨i, hi, hget, hpe, hprev⟩ := find?_first_index _ _ _ he
    refine ⟨i, hi, ?_, ?_, hprev⟩
    · simp only [categorizeNote, he]
      rw [hget]
    · rw [hget]
      exact hpe
  · rfl

theorem categorize_first_match_witness :
    (∃ i, ∃ hi : i < keywordsTable.length,
      categorizeNote "team meeting tomorrow" "" 0 = (keywordsTable.get ⟨i, hi⟩).1 ∧
      catMatches (noteText "team meeting tomorrow" "") (keywordsTable.get ⟨i, hi⟩) = true ∧
      ∀ j, ∀ hj : j < i,
        catMatches (noteText "team meeting tomorrow" "")
          (keywordsTable.get ⟨j, Nat.lt_trans hj hi⟩) = false) ∧
    categorizeNote "team meeting tomorrow" "" 0 = "Work" :=
  categorize_first_match "team meeting tomorrow" "" 0 (by decide)

/-- C9 fails as stated: "work" occurs in the lower-cased plain concatenation
of title "wor" and content "k", yet the code scans `"wor k"`, finds no
keyword, and takes the random branch, so two runs with different draws can
return different categories. -/
theorem categorize_deterministic_counterexample :
    keywordHit (claimText "wor" "k") = true ∧
    categorizeNote "wor" "k" 0 ≠ categorizeNote "wor" "k" 4 := by decide

/-- C9 amended: when a keyword occurs in the lower-cased concatenation of
title, a single separating space, and content — the text the code scans —
`categorize` does not depend on the random draw: any two runs agree. -/
theorem categorize_deterministic_on_match (title content : String) (r₁ r₂ : Fin 5)
    (h : keywordHit (noteText title content) = true) :
    categorizeNote title content r₁ = categorizeNote title content r₂ := by
  obtain ⟨e, he⟩ := find?_isSome_of_hit (noteText title content) h
  simp only [categorizeNote, he]

theorem categorize_deterministic_on_match_witness :
    categorizeNote "team meeting" "" 0 = categorizeNote "team meeting" "" 4 :=
  categorize_deterministic_on_match "team meeting" "" 0 4 (by decide)

/-- C5: when no keyword occurs in the lower-cased plain concatenation of title
and content (which forces a miss on the space-joined text the code scans as
well), `categorize` lands on the random branch: the result is always one of
exactly {Work, Personal, Study, Idea, General} — General is in the pool
despite having no keywords — and distinct draws of the uniformly distributed
index give distinct categories, so the five outcomes are equally likely. -/
theorem categorize_no_match_pool (title content : String)
    (h : keywordHit (claimText title content) = false) :
    (∀ r : Fin 5, categorizeNote title content r ∈
      ["Work", "Personal", "Study", "Idea", "General"]) ∧
    (∀ r₁ r₂ : Fin 5,
      categorizeNote title content r₁ = categorizeNote title content r₂ → r₁ = r₂) := by
  have hn : keywordHit (noteText title content) = false := by
    cases hs : keywordHit (noteText title content) with
    | false => rfl
    | true =>
      have := hit_drop_space title content hs
      simp [this] at h
  have hfind : keywordsTable.find? (catMatches (noteText title content)) = none := by
    rw [List.find?_eq_none]
    intro e he
    have h2 := List.any_eq_false.mp hn e he
    simpa using h2
  have hval : ∀ r : Fin 5, categorizeNote title content r = randomPick r := by
    intro r
    simp only [categorizeNote, hfind]
  constructor
  · intro r
    rw [hval r]
    exact (by decide :
      ∀ r : Fin 5, randomPick r ∈ ["Work", "Personal", "Study", "Idea", "General"]) r
  · intro r₁ r₂ hr
    rw [hval r₁, hval r₂] at hr
    exact (by decide : ∀ r₁ r₂ : Fin 5, randomPick r₁ = randomPick r₂ → r₁ = r₂) r₁ r₂ hr

theorem categorize_no_match_pool_witness :
    (∀ r : Fin 5, categorizeNote "hello" "world" r ∈
      ["Work", "Personal", "Study", "Idea", "General"]) ∧
    (∀ r₁ r₂ : Fin 5,
      categorizeNote "hello" "world" r₁ = categorizeNote "hello" "world" r₂ → r₁ = r₂) :=
  categorize_no_match_pool "hello" "world" (by decide)

theorem sorted_le_getLast : ∀ (l : List Int) (m : Int), l.Pairwise (· < ·) →
    l.getLast? = some m → ∀ x ∈ l, x ≤ m := by
  intro l
  induction l with
  | nil =>
    intro m _ _ x hx
    simp at hx
  | cons a t ih =>
    intro m hp hm x hx
    cases t with
    | nil =>
      simp at hm hx
      omega
    | cons b t2 =>
      rw [List.getLast?_cons_cons] at hm
      rcases List.mem_cons.mp hx with rfl | hx2
      · have hmem : m ∈ b :: t2 := by
          obtain ⟨l2, heq⟩ := List.getLast?_eq_some_iff.mp hm
          rw [heq]
          simp
        exact le_of_lt (List.rel_of_pairwise_cons hp hmem)
      · exact ih m hp.of_cons hm x hx2

theorem applyOp_sorted (s : List PyNote) (op : Op)
    (h : (idsOf s).Pairwise (· < ·)) : (idsOf (applyOp s op)).Pairwise (· < ·) := by
  cases op with
  | add t c r =>
    simp only [applyOp, addNote]
    have hids : idsOf (s ++ [PyNote.categorized (nextId s) t c (categorizeNote t c r)]) =
        idsOf s ++ [nextId s] := by simp [idsOf, PyNote.getId]
    rw [hids, List.pairwise_append]
    refine ⟨h, List.pairwise_singleton _ _, ?_⟩
    intro x hx y hy
    rw [List.mem_singleton] at hy
    subst hy
    cases hlast : s.getLast? with
    | none =>
      rw [List.getLast?_eq_none_iff.mp hlast] at hx
      simp [idsOf] at hx
    | some last =>
      have hlg : (idsOf s).getLast? = some last.getId := by
        rw [idsOf, List.getLast?_map, hlast]
        rfl
      have hle := sorted_le_getLast (idsOf s) last.getId h hlg x hx
      have hn : nextId s = last.getId + 1 := by simp [nextId, hlast]
      omega
  | del i =>
    simp only [applyOp]
    have hsub : List.Sublist (idsOf ((deleteNote s i).1)) (idsOf s) :=
      (List.filter_sublist s).map PyNote.getId
    exact h.sublist hsub

theorem runOps_sorted (ops : List Op) : (idsOf (runOps ops)).Pairwise (· < ·) := by
  suffices hgen : ∀ s, (idsOf s).Pairwise (· < ·) →
      (idsOf (ops.foldl applyOp s)).Pairwise (· < ·) by
    exact hgen [] (by simp [idsOf])
  induction ops with
  | nil =>
    intro s hs
    simpa using hs
  | cons op rest ih =>
    intro s hs
    rw [List.foldl_cons]
    exact ih _ (applyOp_sorted s op hs)

/-- C1 fails as stated, in both halves.  Reuse: from the empty collection, two
adds create IDs 1 and 2, deleting ID 2 succeeds, and the next add returns 2
again — the ID of the deleted note — because `add_note` uses the LAST note's
ID plus one.  Maximum: on a loaded collection whose records carry IDs 5 then
2, add assigns 2 + 1 = 3, not the claimed maximum-plus-one 6. -/
theorem add_id_counterexample :
    (2 : Int) ∈ idsOf (runOps [Op.add "a" "a" 0, Op.add "b" "b" 0]) ∧
    (deleteNote (runOps [Op.add "a" "a" 0, Op.add "b" "b" 0]) 2).2 = true ∧
    (addNote (deleteNote (runOps [Op.add "a" "a" 0, Op.add "b" "b" 0]) 2).1 "c" "c" 0).1 = 2 ∧
    (addNote (loadNotes [NoteRecord.mk 5 "t" "u" (some "Work"),
        NoteRecord.mk 2 "t" "u" (some "Work")]) "x" "y" 0).1 = 3 ∧
    (5 : Int) ∈ idsOf (loadNotes [NoteRecord.mk 5 "t" "u" (some "Work"),
        NoteRecord.mk 2 "t" "u" (some "Work")]) ∧
    (3 : Int) ≠ 5 + 1 := by decide

/-- C1 amended: `add_note` assigns the last note's ID plus one (1 on the empty
collection).  On every collection reachable from empty by add and delete
operations the IDs stay strictly increasing, so the assigned ID is then the
maximum existing ID plus one: the predecessor of the new ID is an existing ID
and bounds every existing ID.  IDs of deleted notes, however, can be reused:
deleting the note with the highest ID makes the next add return that same ID
(see the counterexample). -/
theorem add_id_max_plus_one (ops : List Op) (t c : String) (r : Fin 5) :
    (runOps ops = [] → (addNote (runOps ops) t c r).1 = 1) ∧
    (runOps ops ≠ [] →
      ((addNote (runOps ops) t c r).1 - 1) ∈ idsOf (runOps ops) ∧
      ∀ i ∈ idsOf (runOps ops), i ≤ (addNote (runOps ops) t c r).1 - 1) := by
  constructor
  · intro hs
    simp [addNote, nextId, hs]
  · intro hs
    obtain ⟨last, hlast⟩ : ∃ n, (runOps ops).getLast? = some n := by
      cases hl : (runOps ops).getLast? with
      | none => exact absurd (List.getLast?_eq_none_iff.mp hl) hs
      | some n => exact ⟨n, rfl⟩
    have hid : (addNote (runOps ops) t c r).1 = last.getId + 1 := by
      simp [addNote, nextId, hlast]
    rw [hid]
    have hsimp : last.getId + 1 - 1 = last.getId := by omega
    rw [hsimp]
    constructor
    · have hmem : last ∈ runOps ops := by
        obtain ⟨l2, heq⟩ := List.getLast?_eq_some_iff.mp hlast
        rw [heq]
        simp
      simp only [idsOf]
      exact List.mem_map_of_mem PyNote.getId hmem
    · intro i hi
      exact sorted_le_getLast (idsOf (runOps ops)) last.getId (runOps_sorted ops)
        (by rw [idsOf, List.getLast?_map, hlast]; rfl) i hi

theorem add_id_max_plus_one_witness :
    ((addNote (runOps [Op.add "a" "a" 0]) "b" "b" 0).1 - 1) ∈ idsOf (runOps [Op.add "a" "a" 0]) ∧
    ∀ i ∈ idsOf (runOps [Op.add "a" "a" 0]),
      i ≤ (addNote (runOps [Op.add "a" "a" 0]) "b" "b" 0).1 - 1 :=
  (add_id_max_plus_one [Op.add "a" "a" 0] "b" "b" 0).2 (by decide)

theorem intRange_length : ∀ (n : Nat) (a : Int), (intRange a n).length = n := by
  intro n
  induction n with
  | zero =>
    intro a
    rfl
  | succ k ih =>
    intro a
    simp [intRange, ih]

theorem addIds_intRange : ∀ (inputs : List (String × String × Fin 5)) (notes : List PyNote),
    addIds inputs notes = intRange (nextId notes) inputs.length := by
  intro inputs
  induction inputs with
  | nil =>
    intro notes
    rfl
  | cons i rest ih =>
    intro notes
    have h2 : nextId (addNote notes i.1 i.2.1 i.2.2).2 = nextId notes + 1 := by
      show nextId (notes ++ [PyNote.categorized (nextId notes) _ _ _]) = _
      simp [nextId, List.getLast?_concat]
      rfl
    simp only [addIds]
    rw [ih, h2]
    rfl

/-- C6: starting from the empty collection and performing only `add` calls,
the returned IDs are exactly 1, 2, 3, … in order (`intRange 1 n` is the list
1, …, n, each entry one more than the previous), regardless of the titles,
contents and random draws supplied. -/
theorem add_ids_sequential (inputs : List (String × String × Fin 5)) :
    addIds inputs [] = intRange 1 inputs.length ∧
    (addIds inputs []).length = inputs.length := by
  have h := addIds_intRange inputs []
  constructor
  · exact h
  · rw [h]
    exact intRange_length _ _

end Organizer
